import Mathlib

/-!
Verification development for the jsPDF-utils pagination engine
(`src/html-to-pdf.ts`).

The TypeScript source is shallowly embedded here:
* DOM strings are modelled as `List Char` (`Str`); a word list is the
  tokenization the source computes from `textContent`.
* Pixel geometry (`offsetHeight`, `getBoundingClientRect`) is modelled
  with exact rationals `ℚ`; runtime measurement of a word slice is an
  abstract function `List Str → ℚ` carried by each text node.
* JavaScript numbers appearing where division by zero matters
  (`computeLayout`, `forcedPageCount`) are modelled by `JSNum`, a ℚ
  extended with signed infinities and NaN.
* Exception flow of `generatePDF`/`prepare` is modelled by `Except`
  with explicit failure-injection flags.
-/

namespace JsPdfUtils

/-- A JavaScript string, modelled as its character list. -/
abbrev Str := List Char

/-- JavaScript `Array.prototype.join(" ")`: concatenate with single spaces. -/
def joinSp : List Str → Str
  | [] => []
  | [w] => w
  | w :: ws => w ++ ' ' :: joinSp ws

theorem joinSp_append : ∀ xs ys : List Str, xs ≠ [] → ys ≠ [] →
    joinSp (xs ++ ys) = joinSp xs ++ ' ' :: joinSp ys
  | [], _, hx, _ => absurd rfl hx
  | [w], y :: ys, _, _ => by simp [joinSp]
  | [w], [], _, hy => absurd rfl hy
  | w :: w2 :: ws2, ys, _, hy => by
    have ih := joinSp_append (w2 :: ws2) ys (by simp) hy
    simp only [List.cons_append, joinSp] at ih ⊢
    rw [show ws2.append ys = ws2 ++ ys from rfl, ih]; simp

/-- Joining the per-group joins with single spaces equals joining the
flattened word list, provided every group is nonempty. -/
theorem joinSp_map_flatten : ∀ gs : List (List Str), (∀ g ∈ gs, g ≠ []) →
    joinSp (gs.map joinSp) = joinSp gs.flatten
  | [], _ => rfl
  | [g], _ => by simp [joinSp]
  | g :: g2 :: rest2, h => by
    have hg : g ≠ [] := h g (by simp)
    have hrest : ∀ x ∈ g2 :: rest2, x ≠ [] := fun x hx => h x (by simp [hx])
    have hflat : (g2 :: rest2).flatten ≠ [] := by
      have hg2 : g2 ≠ [] := hrest g2 (by simp)
      cases g2 with
      | nil => exact absurd rfl hg2
      | cons c cs => simp
    have ihr := joinSp_map_flatten (g2 :: rest2) hrest
    have h1 : joinSp ((g :: g2 :: rest2).map joinSp)
        = joinSp g ++ ' ' :: joinSp ((g2 :: rest2).map joinSp) := by
      simp [joinSp]
    rw [h1, ihr, ← joinSp_append g (g2 :: rest2).flatten hg hflat]
    simp

/-! ## JavaScript numbers

`computeLayout` divides by a measured width that can be `0`, and
`normalizeForcedPageCount` checks `Number.isFinite`, so these code paths
are modelled on a JavaScript-number type: a rational extended with the
two infinities and NaN, with IEEE-754 division/floor rules on the cases
the source exercises. -/

inductive JSNum where
  | fin (q : ℚ)
  | inf
  | ninf
  | nan
deriving DecidableEq, Repr

namespace JSNum

/-- JavaScript division, including division by zero and by infinities. -/
def div : JSNum → JSNum → JSNum
  | fin a, fin b =>
    if b = 0 then (if a = 0 then nan else if 0 < a then inf else ninf)
    else fin (a / b)
  | fin _, inf => fin 0
  | fin _, ninf => fin 0
  | inf, fin b => if 0 ≤ b then inf else ninf
  | ninf, fin b => if 0 ≤ b then ninf else inf
  | _, _ => nan

/-- JavaScript `Math.floor`. -/
def jfloor : JSNum → JSNum
  | fin q => fin ⌊q⌋
  | inf => inf
  | ninf => ninf
  | nan => nan

/-- JavaScript `Number.isFinite`. -/
def isFinite : JSNum → Bool
  | fin _ => true
  | _ => false

end JSNum

/-! ## Page options (`resolveOptions`, `resolveMargin`) -/

/-- The `PageFormat` union type. -/
inductive PageFormat where
  | a0 | a1 | a2 | a3 | a4 | a5 | a6 | letter | legal | tabloid
deriving DecidableEq, Repr

/-- `PAGE_SIZES`: standard page dimensions in mm (portrait). -/
def PAGE_SIZES : PageFormat → ℚ × ℚ
  | .a0 => (841, 1189)
  | .a1 => (594, 841)
  | .a2 => (420, 594)
  | .a3 => (297, 420)
  | .a4 => (210, 297)
  | .a5 => (148, 210)
  | .a6 => (105, 148)
  | .letter => (2159/10, 2794/10)
  | .legal => (2159/10, 3556/10)
  | .tabloid => (2794/10, 4318/10)

/-- `PAGE_MARGINS`: standard margins in mm per format. -/
def PAGE_MARGINS : PageFormat → ℚ
  | .a0 => 40
  | .a1 => 35
  | .a2 => 30
  | .a3 => 25
  | .a4 => 25
  | .a5 => 20
  | .a6 => 12
  | .letter => 254/10
  | .legal => 254/10
  | .tabloid => 25

/-- The `Margin` record (all four sides resolved). -/
structure MarginQ where
  top : ℚ
  right : ℚ
  bottom : ℚ
  left : ℚ
deriving DecidableEq, Repr

/-- `MarginInput`: a number, or an object with optional sides. -/
inductive MarginInput where
  | num (v : ℚ)
  | sides (top right bottom left : Option ℚ)
deriving DecidableEq, Repr

/-- The resolved `PageOptions` record. -/
structure PageOptions where
  unit : String
  format : PageFormat
  pageWidth : ℚ
  pageHeight : ℚ
  margin : MarginQ
deriving DecidableEq, Repr

/-- `PageOptionsInput`: every field optional. -/
structure PageOptionsInput where
  unit : Option String := none
  format : Option PageFormat := none
  pageWidth : Option ℚ := none
  pageHeight : Option ℚ := none
  margin : Option MarginInput := none

/-- `createUniformMargin`. -/
def createUniformMargin (v : ℚ) : MarginQ := ⟨v, v, v, v⟩

/-- `resolveMargin`. -/
def resolveMargin (input : Option MarginInput) (format : PageFormat) : MarginQ :=
  let fallback := createUniformMargin (PAGE_MARGINS format)
  match input with
  | none => fallback
  | some (.num v) => createUniformMargin v
  | some (.sides t r b l) =>
    ⟨t.getD fallback.top, r.getD fallback.right,
     b.getD fallback.bottom, l.getD fallback.left⟩

/-- `resolveOptions`. -/
def resolveOptions (opts : PageOptionsInput) : PageOptions :=
  let format := opts.format.getD .a4
  let dims := PAGE_SIZES format
  { unit := opts.unit.getD "mm"
    format := format
    pageWidth := opts.pageWidth.getD dims.1
    pageHeight := opts.pageHeight.getD dims.2
    margin := resolveMargin opts.margin format }

/-! ## Layout resolver (`computeLayout`) -/

/-- The `Layout` record.  All fields are JavaScript numbers since the
source computes them with unchecked division by `renderedWidth`. -/
structure LayoutJS where
  renderedWidth : JSNum
  scale : JSNum
  contentWidthMm : JSNum
  pageContentPx : JSNum
deriving DecidableEq, Repr

/-- `computeLayout`, with `renderedWidth = container.offsetWidth` passed
as the measured input.  Mirrors the source exactly: no validity check on
the width, `pageContentPx = Math.floor(usableHeightMm / scale)`. -/
def computeLayout (renderedWidth : JSNum) (opts : PageOptions) : LayoutJS :=
  let contentWidthMm : JSNum :=
    .fin (opts.pageWidth - opts.margin.left - opts.margin.right)
  let scale := contentWidthMm.div renderedWidth
  let usableHeightMm : JSNum :=
    .fin (opts.pageHeight - opts.margin.top - opts.margin.bottom)
  let pageContentPx := (usableHeightMm.div scale).jfloor
  ⟨renderedWidth, scale, contentWidthMm, pageContentPx⟩

/-! ## Content tree

The prepared clone's subtree.  A node is a table (a list of rows), a
text-bearing leaf (no child elements), or an element with child
elements.  Each text leaf carries the abstract measurement function the
off-screen measuring element realises: the rendered height, in px, of a
word slice joined with single spaces (tag, inline style and width are
shared with the leaf, padding and margin zeroed — exactly what
`createMeasureElement` builds). -/

/-- A table row: whether it contains a `<th>` cell (header detection),
its `offsetHeight`, and an opaque payload standing for its cell content
(`cloneNode(true)` preserves it). -/
structure Row where
  hasTh : Bool
  height : ℚ
  payload : ℕ
deriving DecidableEq, Repr

/-- A node of the content tree. -/
inductive Node where
  /-- `<table>` with its `rows`. -/
  | table (rows : List Row)
  /-- Text-bearing leaf: tag name, own rendered height, measurement
  function for word slices, tokenized words. -/
  | text (tag : String) (height : ℚ) (meas : List Str → ℚ) (words : List Str)
  /-- Element with child elements (`children.length > 0`). -/
  | elem (height : ℚ) (children : List Node)

/-- Sum of the rendered heights of a list of rows. -/
def sumHeights (rows : List Row) : ℚ := (rows.map Row.height).sum

/-- A table's rendered height: the sum of its rows' heights (the `- 2`
slack in the source absorbs the remaining table chrome). -/
def tableHeight (rows : List Row) : ℚ := sumHeights rows

/-- A node's measured height (`offsetHeight` /
`getBoundingClientRect().height`). -/
def nodeHeight : Node → ℚ
  | .table rows => tableHeight rows
  | .text _ h _ _ => h
  | .elem h _ => h

/-- The rows of a table node (empty for non-tables). -/
def tableRows : Node → List Row
  | .table rows => rows
  | _ => []

/-! ## Oversize table splitting (`splitOversizedTables`) -/

/-- The greedy row-grouping loop of `splitOversizedTables`: accumulate
rows while the group stays within `maxH`; when the next row would
overflow a nonempty group, close it and start a new one with that row.
`group`/`gh` are the loop's accumulator and its running height. -/
def groupRowsAux (maxH : ℚ) : List Row → List Row → ℚ → List (List Row)
  | [], group, _ => if group.isEmpty then [] else [group]
  | r :: rs, group, gh =>
    if gh + r.height > maxH ∧ ¬ group.isEmpty then
      group :: groupRowsAux maxH rs [r] r.height
    else
      groupRowsAux maxH rs (group ++ [r]) (gh + r.height)

/-- `splitOversizedTables`' grouping, started with an empty group. -/
def groupRows (maxH : ℚ) (rows : List Row) : List (List Row) :=
  groupRowsAux maxH rows [] 0

/-- The per-table action of `splitOversizedTables` once
`parseTableStructure` returned (rows nonempty, so `r0 :: rest`): detect
the header, group the body rows under
`maxRowsHeight = pageContentPx - headerHeight - 2`, and emit one table
per group (empty-shell clone + header clone + grouped row clones). -/
def splitTableParsed (pageContentPx : ℚ) (r0 : Row) (rest : List Row) : List Node :=
  let hasHeader := r0.hasTh
  let headerList := if hasHeader then [r0] else []
  let bodyRows := if hasHeader then rest else r0 :: rest
  let headerHeight := if hasHeader then r0.height else 0
  let maxRowsHeight := pageContentPx - headerHeight - 2
  (groupRows maxRowsHeight bodyRows).map fun g => Node.table (headerList ++ g)

/-- `splitOversizedTables` over the container's direct children: each
direct-child table taller than `pageContentPx` (and with at least one
row, else `parseTableStructure` returns null and it is skipped) is
replaced in place by its emitted fragment tables. -/
def splitOversizedTablesPass (pageContentPx : ℚ) (children : List Node) : List Node :=
  children.flatMap fun c =>
    match c with
    | .table rows =>
      if tableHeight rows ≤ pageContentPx then [c]
      else
        match rows with
        | [] => [c]
        | r0 :: rest => splitTableParsed pageContentPx r0 rest
    | _ => [c]

/-! ## Word-fit binary search (`binarySearchWordFit`) -/

/-- JavaScript `words.slice(a, b)`. -/
def wslice (l : List Str) (a b : ℕ) : List Str := (l.drop a).take (b - a)

/-- The `while (lo < hi)` loop of `binarySearchWordFit`:
`mid = Math.ceil((lo + hi) / 2)`; if the words `startIndex..mid` fit
within `maxHeight` move `lo` up to `mid`, else move `hi` below `mid`. -/
def binarySearchAux (meas : List Str → ℚ) (words : List Str) (maxHeight : ℚ)
    (startIndex : ℕ) (lo hi : ℕ) : ℕ :=
  if h : lo < hi then
    if meas (wslice words startIndex ((lo + hi + 1) / 2)) ≤ maxHeight then
      binarySearchAux meas words maxHeight startIndex ((lo + hi + 1) / 2) hi
    else
      binarySearchAux meas words maxHeight startIndex lo ((lo + hi + 1) / 2 - 1)
  else lo
termination_by hi - lo
decreasing_by
  · omega
  · omega

/-- `binarySearchWordFit`: maximum word count (from `startIndex`) that
fits within `maxHeight`, starting from `lo = startIndex + 1`,
`hi = words.length`. -/
def binarySearchWordFit (meas : List Str → ℚ) (words : List Str)
    (maxHeight : ℚ) (startIndex : ℕ) : ℕ :=
  binarySearchAux meas words maxHeight startIndex (startIndex + 1) words.length

/-- The search result stays within `[lo, hi]` whenever `lo ≤ hi`. -/
theorem binarySearchAux_bounds (meas : List Str → ℚ) (words : List Str)
    (maxHeight : ℚ) (startIndex : ℕ) :
    ∀ lo hi, lo ≤ hi →
      lo ≤ binarySearchAux meas words maxHeight startIndex lo hi ∧
      binarySearchAux meas words maxHeight startIndex lo hi ≤ hi := by
  intro lo hi
  induction lo, hi using binarySearchAux.induct meas words maxHeight startIndex with
  | case1 lo hi h hfit ih =>
    intro _
    rw [binarySearchAux]
    simp only [dif_pos h, if_pos hfit]
    have := ih (by omega)
    omega
  | case2 lo hi h hfit ih =>
    intro _
    rw [binarySearchAux]
    simp only [dif_pos h, if_neg hfit]
    have := ih (by omega)
    omega
  | case3 lo hi h =>
    intro hle
    rw [binarySearchAux]
    simp only [dif_neg h]
    omega

/-- At return, either `lo` was never moved (still `startIndex + 1`) or
it equals the last `mid` whose slice measured within `maxHeight`. -/
theorem binarySearchAux_fits (meas : List Str → ℚ) (words : List Str)
    (maxHeight : ℚ) (startIndex : ℕ) :
    ∀ lo hi,
      (lo = startIndex + 1 ∨ meas (wslice words startIndex lo) ≤ maxHeight) →
      (binarySearchAux meas words maxHeight startIndex lo hi = startIndex + 1 ∨
       meas (wslice words startIndex
         (binarySearchAux meas words maxHeight startIndex lo hi)) ≤ maxHeight) := by
  intro lo hi
  induction lo, hi using binarySearchAux.induct meas words maxHeight startIndex with
  | case1 lo hi h hfit ih =>
    intro _
    rw [binarySearchAux]
    simp only [dif_pos h, if_pos hfit]
    exact ih (Or.inr hfit)
  | case2 lo hi h hfit ih =>
    intro hP
    rw [binarySearchAux]
    simp only [dif_pos h, if_neg hfit]
    exact ih hP
  | case3 lo hi h =>
    intro hP
    rw [binarySearchAux]
    simp only [dif_neg h]
    exact hP

/-- Lower bound on `binarySearchWordFit`: at least one word past
`startIndex` is always taken. -/
theorem binarySearchWordFit_ge (meas : List Str → ℚ) (words : List Str)
    (maxHeight : ℚ) (startIndex : ℕ) (h : startIndex < words.length) :
    startIndex + 1 ≤ binarySearchWordFit meas words maxHeight startIndex :=
  (binarySearchAux_bounds meas words maxHeight startIndex
    (startIndex + 1) words.length (by omega)).1

/-- Upper bound on `binarySearchWordFit`. -/
theorem binarySearchWordFit_le (meas : List Str → ℚ) (words : List Str)
    (maxHeight : ℚ) (startIndex : ℕ) (h : startIndex < words.length) :
    binarySearchWordFit meas words maxHeight startIndex ≤ words.length :=
  (binarySearchAux_bounds meas words maxHeight startIndex
    (startIndex + 1) words.length (by omega)).2

/-! ## Oversize text splitting (`splitOversizedText`) -/

/-- The chunking loop of `splitOversizedText`:
`while (start < words.length) { lo = binarySearchWordFit(...); emit
words.slice(start, lo); start = lo }`. -/
def chunkWords (meas : List Str → ℚ) (maxHeight : ℚ) (words : List Str)
    (start : ℕ) : List (List Str) :=
  if h : start < words.length then
    wslice words start (binarySearchWordFit meas words maxHeight start) ::
      chunkWords meas maxHeight words (binarySearchWordFit meas words maxHeight start)
  else []
termination_by words.length - start
decreasing_by
  have := binarySearchWordFit_ge meas words maxHeight start h
  omega

/-- `splitOversizedText` over the container's direct children: a
direct-child text leaf taller than `pageContentPx` is emptied and kept
as a style-carrying wrapper whose children are the word chunks as plain
`<div>`s (each chunk's rendered height is what the measuring element
reports for its words); an element with child elements is recursed
into; tables are skipped. -/
def splitOversizedTextPass (pageContentPx : ℚ) : List Node → List Node
  | [] => []
  | .table rows :: cs => Node.table rows :: splitOversizedTextPass pageContentPx cs
  | .text tag h meas ws :: cs =>
    (if h ≤ pageContentPx then Node.text tag h meas ws
     else Node.elem h ((chunkWords meas pageContentPx ws 0).map fun c =>
       Node.text "DIV" (meas c) meas c)) :: splitOversizedTextPass pageContentPx cs
  | .elem h children :: cs =>
    (if h ≤ pageContentPx then Node.elem h children
     else Node.elem h (splitOversizedTextPass pageContentPx children)) ::
      splitOversizedTextPass pageContentPx cs

/-! ## Boundary splitting (`splitTableAtBoundary`, `splitTextAtBoundary`) -/

/-- The row-fit counting loop of `splitTableAtBoundary` (`acc` is the
running `totalHeight`): count the greedy prefix of body rows whose
cumulative height stays within `maxBodyHeight`. -/
def countFitAux (maxBodyHeight : ℚ) : List Row → ℚ → ℕ
  | [], _ => 0
  | r :: rs, acc =>
    if acc + r.height > maxBodyHeight then 0
    else 1 + countFitAux maxBodyHeight rs (acc + r.height)

/-- `fitCount` of `splitTableAtBoundary`. -/
def countFit (maxBodyHeight : ℚ) (bodyRows : List Row) : ℕ :=
  countFitAux maxBodyHeight bodyRows 0

/-- `splitTableAtBoundary`: split a straddling table at the boundary.
Returns the row lists of the two replacement tables, or `none`
(`return false`) when no non-trivial split exists: no rows, fewer than
two body rows, no positive body space, nothing fits, or everything
fits. -/
def splitTableAtBoundary (availableHeight : ℚ) (rows : List Row) :
    Option (List Row × List Row) :=
  match rows with
  | [] => none
  | r0 :: rest =>
    let hasHeader := r0.hasTh
    let headerList := if hasHeader then [r0] else []
    let bodyRows := if hasHeader then rest else r0 :: rest
    let headerHeight := if hasHeader then r0.height else 0
    if bodyRows.length < 2 then none
    else
      let maxBodyHeight := availableHeight - headerHeight - 2
      if maxBodyHeight ≤ 0 then none
      else
        let fitCount := countFit maxBodyHeight bodyRows
        if fitCount = 0 ∨ fitCount = bodyRows.length then none
        else
          some (headerList ++ bodyRows.take fitCount,
                headerList ++ bodyRows.drop fitCount)

/-- `splitTextAtBoundary`: split a straddling text leaf at the word
boundary filling the remaining space.  Returns the two word slices, or
`none` (`return false`) when the element is a table or image, has fewer
than two words, its first word alone overflows the space, or all words
fit. -/
def splitTextAtBoundary (tag : String) (meas : List Str → ℚ)
    (words : List Str) (availableHeight : ℚ) : Option (List Str × List Str) :=
  if tag = "TABLE" ∨ tag = "IMG" then none
  else if words.length < 2 then none
  else if availableHeight < meas (words.take 1) then none
  else
    let lo := binarySearchWordFit meas words availableHeight 0
    if words.length ≤ lo then none
    else some (words.take lo, words.drop lo)

/-! ## Boundary pagination loop body (`insertPageBreakSpacers`) -/

/-- The action `insertPageBreakSpacers` takes for one direct child. -/
inductive StepAction where
  /-- `splitTableAtBoundary` succeeded: the child is replaced by two
  tables and the loop re-examines the same index. -/
  | tableSplit (first second : List Row)
  /-- The child has child elements: recurse into it. -/
  | recurse
  /-- `splitTextAtBoundary` succeeded: the child's content is replaced
  by the two halves and the loop re-examines the same index. -/
  | textSplit (first second : List Str)
  /-- Fallback: a spacer div of the given pixel height is inserted
  before the child. -/
  | spacer (px : ℤ)
  /-- No straddle (or unsplittable and taller than a page): move on. -/
  | keep
deriving Repr

/-- One iteration of the `insertPageBreakSpacers` loop for the child at
vertical offset `childTop` (relative to the container's origin):
`pageEnd = (Math.floor(childTop / pageContentPx) + 1) * pageContentPx`;
a child whose bottom exceeds `pageEnd + 0.5` is boundary-split if
possible, recursed into if it has child elements, and otherwise pushed
whole to the next page by a `Math.ceil(pageEnd - childTop)`-px spacer
provided its own height does not exceed one page. -/
def processChild (pageContentPx childTop : ℚ) (child : Node) : StepAction :=
  let childBottom := childTop + nodeHeight child
  let pageEnd : ℚ := ((⌊childTop / pageContentPx⌋ : ℤ) + 1) * pageContentPx
  if childBottom > pageEnd + 1/2 then
    let remainingSpace := pageEnd - childTop
    let fallback : StepAction :=
      if nodeHeight child ≤ pageContentPx then .spacer ⌈pageEnd - childTop⌉
      else .keep
    match child with
    | .table rows =>
      match splitTableAtBoundary remainingSpace rows with
      | some (a, b) => .tableSplit a b
      | none => fallback
    | .elem _ _ => .recurse
    | .text tag _ meas words =>
      match splitTextAtBoundary tag meas words remainingSpace with
      | some (a, b) => .textSplit a b
      | none => fallback
  else .keep

/-- Whether a step action is a boundary split. -/
def StepAction.isBoundarySplit : StepAction → Bool
  | .tableSplit _ _ => true
  | .textSplit _ _ => true
  | _ => false

/-! ## Observers for the oversize pass

Derived views of the pass results, used to state the height invariant:
the heights of the sub-tables and text chunks the pass emits. -/

/-- Heights of the sub-tables `splitOversizedTables` emits for each
oversized direct-child table (tables at or under the page height, and
row-less tables, are skipped and emit nothing). -/
def emittedTableHeights (pageContentPx : ℚ) : List Node → List ℚ
  | [] => []
  | .table [] :: cs => emittedTableHeights pageContentPx cs
  | .table (r0 :: rest) :: cs =>
    (if tableHeight (r0 :: rest) ≤ pageContentPx then []
     else (splitTableParsed pageContentPx r0 rest).map nodeHeight) ++
      emittedTableHeights pageContentPx cs
  | .text _ _ _ _ :: cs => emittedTableHeights pageContentPx cs
  | .elem _ _ :: cs => emittedTableHeights pageContentPx cs

/-- Rendered heights of the text chunks `splitOversizedText` emits,
through its recursion into elements with child elements. -/
def emittedChunkHeights (pageContentPx : ℚ) : List Node → List ℚ
  | [] => []
  | .table _ :: cs => emittedChunkHeights pageContentPx cs
  | .text _ h meas ws :: cs =>
    (if h ≤ pageContentPx then []
     else (chunkWords meas pageContentPx ws 0).map meas) ++
      emittedChunkHeights pageContentPx cs
  | .elem h children :: cs =>
    (if h ≤ pageContentPx then [] else emittedChunkHeights pageContentPx children) ++
      emittedChunkHeights pageContentPx cs

/-- Hypothesis for the amended height invariant: in every oversized
direct-child table, each body row fits within
`pageContentPx - headerHeight - 2`. -/
def tableRowsFit (pageContentPx : ℚ) : List Node → Bool
  | [] => true
  | .table [] :: cs => tableRowsFit pageContentPx cs
  | .table (r0 :: rest) :: cs =>
    (decide (tableHeight (r0 :: rest) ≤ pageContentPx) ||
      ((if r0.hasTh then rest else r0 :: rest).all fun r =>
        r.height ≤ pageContentPx - (if r0.hasTh then r0.height else 0) - 2)) &&
      tableRowsFit pageContentPx cs
  | .text _ _ _ _ :: cs => tableRowsFit pageContentPx cs
  | .elem _ _ :: cs => tableRowsFit pageContentPx cs

/-- Hypothesis for the amended height invariant: in every text leaf the
text pass splits, each single word measures within `pageContentPx`. -/
def textSingletonsFit (pageContentPx : ℚ) : List Node → Bool
  | [] => true
  | .table _ :: cs => textSingletonsFit pageContentPx cs
  | .text _ h meas ws :: cs =>
    (decide (h ≤ pageContentPx) || ws.all fun w => meas [w] ≤ pageContentPx) &&
      textSingletonsFit pageContentPx cs
  | .elem h children :: cs =>
    (decide (h ≤ pageContentPx) || textSingletonsFit pageContentPx children) &&
      textSingletonsFit pageContentPx cs

/-! ## Forced page count
(`normalizeForcedPageCount`, `resolveTotalPages`,
`trimDocumentToForcedPageCount`, and the page counts each terminal
renderer produces) -/

/-- JavaScript truthiness of an optional number
(`if (opts.forcedPageCount)`). -/
def jsTruthy : Option JSNum → Bool
  | none => false
  | some (.fin q) => decide (q ≠ 0)
  | some .inf => true
  | some .ninf => true
  | some .nan => false

/-- `normalizeForcedPageCount`: `undefined`/non-finite values and
values flooring below 1 are discarded. -/
def normalizeForcedPageCount : Option JSNum → Option ℤ
  | none => none
  | some (.fin q) => if ⌊q⌋ < 1 then none else some ⌊q⌋
  | some _ => none

/-- `resolveTotalPages`: cap the actual page count by the normalized
forced count. -/
def resolveTotalPages (actualTotalPages : ℕ) (forcedPageCount : Option JSNum) : ℕ :=
  match normalizeForcedPageCount forcedPageCount with
  | none => actualTotalPages
  | some f => min actualTotalPages f.toNat

/-- The deletion loop of `trimDocumentToForcedPageCount`:
`for (page = currentTotal; page > forced; page--) doc.deletePage(page)`. -/
def deletePagesDown : ℕ → ℕ → ℕ
  | 0, _ => 0
  | current + 1, forced =>
    if forced < current + 1 then deletePagesDown current forced else current + 1

/-- `trimDocumentToForcedPageCount` on the document's page count. -/
def trimDocumentToForcedPageCount (currentTotal : ℕ)
    (forcedPageCount : Option JSNum) : ℕ :=
  match normalizeForcedPageCount forcedPageCount with
  | none => currentTotal
  | some f => deletePagesDown currentTotal f.toNat

/-- Page count `generatePDF` leaves in the document: `doc.html`
produced `pagesFromHtml` pages, then
`if (opts.forcedPageCount) trimDocumentToForcedPageCount(...)`. -/
def generatePDFPageCount (pagesFromHtml : ℕ)
    (forcedPageCount : Option JSNum) : ℕ :=
  if jsTruthy forcedPageCount then
    trimDocumentToForcedPageCount pagesFromHtml forcedPageCount
  else pagesFromHtml

/-- Number of page images `generateImages` pushes: one per loop
iteration, `totalPages = resolveTotalPages(actual, forced)` times. -/
def generateImagesCount (actualTotalPages : ℕ)
    (forcedPageCount : Option JSNum) : ℕ :=
  resolveTotalPages actualTotalPages forcedPageCount

/-- Page count of the document `generateImagePDF` builds: it starts
with one page and calls `addPage` for every loop index `i > 0`. -/
def generateImagePDFPageCount (actualTotalPages : ℕ)
    (forcedPageCount : Option JSNum) : ℕ :=
  max 1 (generateImagesCount actualTotalPages forcedPageCount)

/-- Number of `<img>` children `previewImages` appends: one per entry
of the array `generateImages` returned. -/
def previewImagesCount (actualTotalPages : ℕ)
    (forcedPageCount : Option JSNum) : ℕ :=
  generateImagesCount actualTotalPages forcedPageCount

/-! ## Decoration op-stream reordering
(`snapshotPageStreamLengths`, `moveAddedPageOpsToBackground`)

The document's per-page content streams are modelled as lists of opaque
operations (`doc.internal.pages`, pages `1..getNumberOfPages`). -/

/-- `snapshotPageStreamLengths`: record each page stream's length. -/
def snapshotPageStreamLengths {Op : Type} (pages : List (List Op)) : List ℕ :=
  pages.map List.length

/-- `moveAddedPageOpsToBackground`: on each page up to
`min(getNumberOfPages, originalLengths.length)`, when the recorded
cutoff is a proper prefix length, move the ops appended after the
snapshot (`stream.slice(cutoff)`) in front of the ops present at
snapshot time (`stream.slice(0, cutoff)`). -/
def moveAddedPageOpsToBackground {Op : Type} :
    List (List Op) → List ℕ → List (List Op)
  | [], _ => []
  | streams, [] => streams
  | stream :: streams, cutoff :: cutoffs =>
    (if cutoff < stream.length then stream.drop cutoff ++ stream.take cutoff
     else stream) :: moveAddedPageOpsToBackground streams cutoffs

/-! ## Cleanup flow of `generatePDF`

`prepare` injects the global reset style, attaches the off-screen
clone, and then runs normalization, layout and the three splitting
passes — any of which, as synchronous DOM code, may throw.  `generatePDF`
destructures `prepare`'s result *before* entering its `try`/`finally`,
whose `finally` invokes the returned `cleanup`.  The DOM side effects
are modelled as a state of the two artifacts; a thrown exception is
`Except.error` carrying the state at the throw. -/

/-- Which render-call artifacts are currently attached to the host
document. -/
structure DomState where
  resetStyleInjected : Bool
  cloneAttached : Bool
deriving DecidableEq, Repr

/-- The `cleanup` closure `prepare` returns:
`clone.remove(); removeResetStyles()`. -/
def cleanupArtifacts (s : DomState) : DomState :=
  { s with resetStyleInjected := false, cloneAttached := false }

/-- `prepare`: inject reset styles, attach the print clone, then run
`normalizeTableAttributes` / `computeLayout` / `splitOversizedTables` /
`splitOversizedText` / `insertPageBreakSpacers`; `failDuringPrepare`
injects a throw from those steps.  On success the result carries the
`cleanup` closure; a throw propagates with both artifacts attached,
because `prepare` itself installs no handler. -/
def prepareRun (failDuringPrepare : Bool) (s : DomState) :
    Except DomState DomState :=
  let s1 := { s with resetStyleInjected := true }
  let s2 := { s1 with cloneAttached := true }
  if failDuringPrepare then .error s2 else .ok s2

/-- `generatePDF`'s exception flow: call `prepare`, then
`try { compressCloneImages; doc.html } finally { cleanup() }`
(`failDuringRender` injects a throw from the `try` body). -/
def generatePDFRun (failDuringPrepare failDuringRender : Bool)
    (s : DomState) : Except DomState DomState :=
  match prepareRun failDuringPrepare s with
  | .error s2 => .error s2
  | .ok s2 =>
    if failDuringRender then .error (cleanupArtifacts s2)
    else .ok (cleanupArtifacts s2)

/-- The DOM state at the moment `generatePDF` exits (normally or by
throwing). -/
def exitState : Except DomState DomState → DomState
  | .error s => s
  | .ok s => s

/-- Every artifact the call introduced has been removed. -/
def noArtifacts (s : DomState) : Prop :=
  s.resetStyleInjected = false ∧ s.cloneAttached = false

/-! ## Helper lemmas -/

/-- The greedy grouping loop emits exactly the accumulated group
followed by the remaining rows: nothing is lost, duplicated or
reordered. -/
theorem groupRowsAux_flatten (maxH : ℚ) :
    ∀ (rows group : List Row) (gh : ℚ),
      (groupRowsAux maxH rows group gh).flatten = group ++ rows
  | [], group, gh => by
    by_cases hg : group.isEmpty
    · simp [groupRowsAux, hg, List.isEmpty_iff.mp hg]
    · simp [groupRowsAux, hg]
  | r :: rs, group, gh => by
    rw [groupRowsAux]
    by_cases hc : gh + r.height > maxH ∧ ¬ group.isEmpty
    · simp only [if_pos hc, List.flatten_cons, groupRowsAux_flatten maxH rs [r] r.height]
      simp
    · simp only [if_neg hc, groupRowsAux_flatten maxH rs (group ++ [r]) (gh + r.height)]
      simp

/-- Every group the greedy loop closes has total height at most `maxH`,
provided each row alone fits within `maxH` and the accumulator is
coherent. -/
theorem groupRowsAux_sums (maxH : ℚ) :
    ∀ (rows group : List Row) (gh : ℚ),
      (∀ r ∈ rows, r.height ≤ maxH) →
      sumHeights group = gh →
      ((group = [] ∧ gh = 0) ∨ gh ≤ maxH) →
      ∀ g ∈ groupRowsAux maxH rows group gh, sumHeights g ≤ maxH
  | [], group, gh => by
    intro _ hsum hinv g hg
    by_cases hgrp : group.isEmpty
    · simp [groupRowsAux, hgrp] at hg
    · simp only [groupRowsAux, if_neg hgrp, List.mem_singleton] at hg
      subst hg
      rcases hinv with ⟨hge, _⟩ | hle
      · exact absurd hge (by simpa using hgrp)
      · exact hsum ▸ hle
  | r :: rs, group, gh => by
    intro hrows hsum hinv g hg
    have hr : r.height ≤ maxH := hrows r (by simp)
    have hrs : ∀ x ∈ rs, x.height ≤ maxH := fun x hx => hrows x (by simp [hx])
    rw [groupRowsAux] at hg
    by_cases hc : gh + r.height > maxH ∧ ¬ group.isEmpty
    · rw [if_pos hc] at hg
      rcases List.mem_cons.mp hg with hgeq | hgmem
      · subst hgeq
        rcases hinv with ⟨hge, _⟩ | hle
        · exact absurd (by simp [hge]) hc.2
        · exact hsum ▸ hle
      · exact groupRowsAux_sums maxH rs [r] r.height hrs (by simp [sumHeights])
          (Or.inr hr) g hgmem
    · rw [if_neg hc] at hg
      refine groupRowsAux_sums maxH rs (group ++ [r]) (gh + r.height) hrs ?_ ?_ g hg
      · simp [sumHeights, ← hsum]
      · rcases Decidable.not_and_iff_or_not.mp hc with hno | hge
        · exact Or.inr (le_of_not_lt hno)
        · have hgrpe : group = [] := List.isEmpty_iff.mp (not_not.mp hge)
          have hgh0 : gh = 0 := by rw [← hsum, hgrpe]; simp [sumHeights]
          exact Or.inr (by rw [hgh0, zero_add]; exact hr)

/-- The chunking loop's chunks concatenate to the suffix it was started
on. -/
theorem chunkWords_flatten (meas : List Str → ℚ) (maxHeight : ℚ)
    (words : List Str) :
    ∀ start, (chunkWords meas maxHeight words start).flatten = words.drop start := by
  intro start
  induction start using chunkWords.induct meas maxHeight words with
  | case1 start h ih =>
    rw [chunkWords, dif_pos h, List.flatten_cons, ih]
    have hge := binarySearchWordFit_ge meas words maxHeight start h
    set lo := binarySearchWordFit meas words maxHeight start with hlo
    have h2 : words.drop lo = (words.drop start).drop (lo - start) := by
      rw [List.drop_drop]
      congr 1
      omega
    rw [wslice, h2, List.take_append_drop]
  | case2 start h =>
    rw [chunkWords, dif_neg h, List.flatten_nil, eq_comm, List.drop_eq_nil_iff]
    omega

/-- Every chunk the loop emits is nonempty. -/
theorem chunkWords_ne (meas : List Str → ℚ) (maxHeight : ℚ) (words : List Str) :
    ∀ start, ∀ c ∈ chunkWords meas maxHeight words start, c ≠ [] := by
  intro start
  induction start using chunkWords.induct meas maxHeight words with
  | case1 start h ih =>
    intro c hc
    rw [chunkWords, dif_pos h] at hc
    rcases List.mem_cons.mp hc with hceq | hcmem
    · subst hceq
      have hge := binarySearchWordFit_ge meas words maxHeight start h
      rw [wslice]
      have hdrop : (words.drop start).length = words.length - start :=
        List.length_drop ..
      intro hnil
      have := congrArg List.length hnil
      rw [List.length_take, hdrop] at this
      simp at this
      omega
    · exact ih c hcmem
  | case2 start h =>
    intro c hc
    rw [chunkWords, dif_neg h] at hc
    exact absurd hc (List.not_mem_nil c)

/-- The loop makes at most one chunk per word. -/
theorem chunkWords_length (meas : List Str → ℚ) (maxHeight : ℚ)
    (words : List Str) :
    ∀ start, (chunkWords meas maxHeight words start).length ≤ words.length - start := by
  intro start
  induction start using chunkWords.induct meas maxHeight words with
  | case1 start h ih =>
    rw [chunkWords, dif_pos h]
    have hge := binarySearchWordFit_ge meas words maxHeight start h
    simp only [List.length_cons]
    omega
  | case2 start h =>
    rw [chunkWords, dif_neg h]
    simp

/-- A one-word slice at an in-range index is the singleton of that
word. -/
theorem wslice_singleton (words : List Str) (start : ℕ)
    (h : start < words.length) :
    wslice words start (start + 1) = [words[start]] := by
  have hd := List.drop_eq_getElem_cons h
  rw [wslice, show start + 1 - start = 1 by omega, hd]
  rfl

/-- Every chunk the loop emits measures within the limit, provided
every single word does. -/
theorem chunkWords_fits (meas : List Str → ℚ) (maxHeight : ℚ)
    (words : List Str) (hw : ∀ w ∈ words, meas [w] ≤ maxHeight) :
    ∀ start, ∀ c ∈ chunkWords meas maxHeight words start, meas c ≤ maxHeight := by
  intro start
  induction start using chunkWords.induct meas maxHeight words with
  | case1 start h ih =>
    intro c hc
    rw [chunkWords, dif_pos h] at hc
    rcases List.mem_cons.mp hc with hceq | hcmem
    · subst hceq
      have hfits := binarySearchAux_fits meas words maxHeight start
        (start + 1) words.length (Or.inl rfl)
      rcases hfits with heq | hle
      · rw [binarySearchWordFit, heq, wslice_singleton words start h]
        exact hw words[start] (List.getElem_mem h)
      · exact hle
    · exact ih c hcmem
  | case2 start h =>
    intro c hc
    rw [chunkWords, dif_neg h] at hc
    exact absurd hc (List.not_mem_nil c)

/-- The deletion loop leaves `min currentTotal forced` pages. -/
theorem deletePagesDown_eq : ∀ currentTotal forced : ℕ,
    deletePagesDown currentTotal forced = min currentTotal forced
  | 0, _ => by simp [deletePagesDown]
  | c + 1, f => by
    rw [deletePagesDown]
    by_cases hf : f < c + 1
    · rw [if_pos hf, deletePagesDown_eq c f]
      omega
    · rw [if_neg hf]
      omega

/-! ## Claim theorems -/

/-- C6: for every resolved `PageOptions` record (satisfying the spec's
`PageSpec` invariant `margins < corresponding dimension/2`, here only
the horizontal half of it is needed) and every container with positive
rendered width, `computeLayout` returns
`contentWidthMm = pageWidth - margin.left - margin.right`,
`scale = contentWidthMm / renderedWidth`, and
`pageContentPx = (pageHeight - margin.top - margin.bottom) / scale`
floored to a whole pixel, so `pageContentPx` is an integer. -/
theorem claim_C6 (w : ℚ) (opts : PageOptions) (hw : 0 < w)
    (hm : opts.margin.left + opts.margin.right < opts.pageWidth) :
    computeLayout (.fin w) opts =
      { renderedWidth := .fin w
        scale := .fin ((opts.pageWidth - opts.margin.left - opts.margin.right) / w)
        contentWidthMm := .fin (opts.pageWidth - opts.margin.left - opts.margin.right)
        pageContentPx := .fin
          ⌊(opts.pageHeight - opts.margin.top - opts.margin.bottom) /
            ((opts.pageWidth - opts.margin.left - opts.margin.right) / w)⌋ } ∧
    ∃ n : ℤ, (computeLayout (.fin w) opts).pageContentPx = .fin (n : ℚ) := by
  have hwne : w ≠ 0 := ne_of_gt hw
  have hcw : opts.pageWidth - opts.margin.left - opts.margin.right ≠ 0 := by
    intro h0
    rw [sub_sub] at h0
    have := sub_eq_zero.mp h0
    linarith
  have hscale : (opts.pageWidth - opts.margin.left - opts.margin.right) / w ≠ 0 :=
    div_ne_zero hcw hwne
  constructor
  · simp [computeLayout, JSNum.div, JSNum.jfloor, hwne, hscale]
  · refine ⟨⌊(opts.pageHeight - opts.margin.top - opts.margin.bottom) /
      ((opts.pageWidth - opts.margin.left - opts.margin.right) / w)⌋, ?_⟩
    simp [computeLayout, JSNum.div, JSNum.jfloor, hwne, hscale]

/-- C7: with a forced page count `N ≥ 1` supplied and an unforced
result of `P ≥ 1` pages, each of the four terminal renderers produces
exactly `min P N` pages. -/
theorem claim_C7 (P N : ℕ) (hP : 1 ≤ P) (hN : 1 ≤ N) :
    generatePDFPageCount P (some (.fin N)) = min P N ∧
    generateImagePDFPageCount P (some (.fin N)) = min P N ∧
    generateImagesCount P (some (.fin N)) = min P N ∧
    previewImagesCount P (some (.fin N)) = min P N := by
  have hfloor : ⌊((N : ℕ) : ℚ)⌋ = (N : ℤ) := Int.floor_natCast N
  have hnorm : normalizeForcedPageCount (some (.fin N)) = some (N : ℤ) := by
    rw [normalizeForcedPageCount, hfloor, if_neg (by omega)]
  have htruthy : jsTruthy (some (.fin N)) = true := by
    rw [jsTruthy, decide_eq_true_eq]
    exact Nat.cast_ne_zero.mpr (by omega)
  have hresolve : resolveTotalPages P (some (.fin N)) = min P N := by
    rw [resolveTotalPages, hnorm]
    simp
  have htrim : trimDocumentToForcedPageCount P (some (.fin N)) = min P N := by
    rw [trimDocumentToForcedPageCount, hnorm]
    simp [deletePagesDown_eq]
  refine ⟨?_, ?_, ?_, ?_⟩
  · rw [generatePDFPageCount, if_pos htruthy, htrim]
  · rw [generateImagePDFPageCount, generateImagesCount, hresolve]
    omega
  · rw [generateImagesCount, hresolve]
  · rw [previewImagesCount, generateImagesCount, hresolve]

/-- C8: on every page, reordering after the snapshot turns a stream
`snapshotOps ++ addedOps` (snapshot-time content followed by decoration
ops appended afterwards) into `addedOps ++ snapshotOps`: decorations end
up beneath the main content, with no op lost, duplicated or
re-issued. -/
theorem claim_C8 {Op : Type} : ∀ (snaps added : List (List Op)),
    snaps.length = added.length →
    moveAddedPageOpsToBackground (List.zipWith (· ++ ·) snaps added)
        (snapshotPageStreamLengths snaps)
      = List.zipWith (fun s a => a ++ s) snaps added := by
  intro snaps
  induction snaps with
  | nil => intro added _; rfl
  | cons s ss ih =>
    intro added hlen
    cases added with
    | nil => simp at hlen
    | cons a as =>
      simp only [List.zipWith_cons_cons, snapshotPageStreamLengths, List.map_cons,
        moveAddedPageOpsToBackground]
      rw [show (List.map List.length ss) = snapshotPageStreamLengths ss from rfl,
        ih as (by simpa using hlen)]
      by_cases ha : a = []
      · subst ha
        simp
      · have hlt : s.length < (s ++ a).length := by
          rw [List.length_append]
          have : 0 < a.length := List.length_pos.mpr ha
          omega
        rw [if_pos hlt, List.drop_left, List.take_left]

/-- C10: for `startIndex < words.length` the binary search returns `lo`
with `startIndex + 1 ≤ lo ≤ words.length` regardless of the measured
heights; hence every chunk of the `splitOversizedText` loop is
nonempty, the loop emits at most `words.length` chunks, and both halves
of a successful `splitTextAtBoundary` are nonempty. -/
theorem claim_C10 (meas : List Str → ℚ) (words : List Str) (maxHeight : ℚ)
    (startIndex : ℕ) (h : startIndex < words.length) :
    (startIndex + 1 ≤ binarySearchWordFit meas words maxHeight startIndex ∧
     binarySearchWordFit meas words maxHeight startIndex ≤ words.length) ∧
    (∀ c ∈ chunkWords meas maxHeight words 0, c ≠ []) ∧
    (chunkWords meas maxHeight words 0).length ≤ words.length ∧
    (∀ (tag : String) (avail : ℚ) (a b : List Str),
      splitTextAtBoundary tag meas words avail = some (a, b) →
      a ≠ [] ∧ b ≠ []) := by
  refine ⟨⟨binarySearchWordFit_ge meas words maxHeight startIndex h,
    binarySearchWordFit_le meas words maxHeight startIndex h⟩,
    chunkWords_ne meas maxHeight words 0,
    by simpa using chunkWords_length meas maxHeight words 0, ?_⟩
  intro tag avail a b hsome
  rw [splitTextAtBoundary] at hsome
  by_cases h1 : tag = "TABLE" ∨ tag = "IMG"
  · rw [if_pos h1] at hsome; exact absurd hsome (by simp)
  rw [if_neg h1] at hsome
  by_cases h2 : words.length < 2
  · rw [if_pos h2] at hsome; exact absurd hsome (by simp)
  rw [if_neg h2] at hsome
  by_cases h3 : avail < meas (words.take 1)
  · rw [if_pos h3] at hsome; exact absurd hsome (by simp)
  rw [if_neg h3] at hsome
  by_cases h4 : words.length ≤ binarySearchWordFit meas words avail 0
  · rw [if_pos h4] at hsome; exact absurd hsome (by simp)
  rw [if_neg h4] at hsome
  have hwne : words ≠ [] := by
    intro h0; rw [h0] at h2; simp at h2
  have hge : 0 + 1 ≤ binarySearchWordFit meas words avail 0 :=
    binarySearchWordFit_ge meas words avail 0 (by omega)
  have heq := Option.some.inj hsome
  have ha : a = words.take (binarySearchWordFit meas words avail 0) :=
    (congrArg Prod.fst heq).symm
  have hb : b = words.drop (binarySearchWordFit meas words avail 0) :=
    (congrArg Prod.snd heq).symm
  subst ha hb
  constructor
  · intro h0
    have := congrArg List.length h0
    rw [List.length_take] at this
    simp only [List.length_nil] at this
    omega
  · intro h0
    have := congrArg List.length h0
    rw [List.length_drop] at this
    simp only [List.length_nil] at this
    omega

/-- Witness for C6: default a4 options, rendered width 800px. -/
theorem claim_C6_witness :
    computeLayout (.fin 800) (resolveOptions {}) =
      { renderedWidth := .fin 800
        scale := .fin ((210 - 25 - 25) / 800)
        contentWidthMm := .fin (210 - 25 - 25)
        pageContentPx := .fin ⌊(297 - 25 - 25) / ((210 - 25 - 25) / 800 : ℚ)⌋ } :=
  (claim_C6 800 (resolveOptions {}) (by norm_num)
    (by norm_num [resolveOptions, resolveMargin, createUniformMargin,
      PAGE_MARGINS, PAGE_SIZES])).1

/-- Witness for C7: `forcedPageCount = 1` on a 5-page result yields
exactly 1 page in every terminal renderer. -/
theorem claim_C7_witness :
    generatePDFPageCount 5 (some (.fin 1)) = 1 ∧
    generateImagePDFPageCount 5 (some (.fin 1)) = 1 ∧
    generateImagesCount 5 (some (.fin 1)) = 1 ∧
    previewImagesCount 5 (some (.fin 1)) = 1 := by
  have h := claim_C7 5 1 (by norm_num) (by norm_num)
  simpa using h

/-- Witness for C8: two pages, one decoration op appended to the first
page only. -/
theorem claim_C8_witness :
    moveAddedPageOpsToBackground
        (List.zipWith (· ++ ·) [[0, 1], [2]] [[9], ([] : List ℕ)])
        (snapshotPageStreamLengths [[0, 1], [2]])
      = [[9, 0, 1], [2]] := by
  have h := claim_C8 [[0, 1], [2]] [[9], ([] : List ℕ)] (by decide)
  simpa using h

/-- Witness for C10: a two-word list with every slice measuring 1px. -/
theorem claim_C10_witness :
    0 + 1 ≤ binarySearchWordFit (fun _ => (1 : ℚ)) [['a'], ['b']] 1 0 ∧
    binarySearchWordFit (fun _ => (1 : ℚ)) [['a'], ['b']] 1 0 ≤ 2 := by
  have h := claim_C10 (fun _ => (1 : ℚ)) [['a'], ['b']] 1 0 (by decide)
  exact ⟨h.1.1, by simpa using h.1.2⟩

/-- C2: for every table split by `splitOversizedTables` (first
conjunct) or `splitTableAtBoundary` (second conjunct), the
concatenation of the emitted fragments' body rows, in document order,
is exactly the original table's body-row sequence, and when the
original's first row contains a header cell the header row is the
first row of every emitted fragment. -/
theorem claim_C2 :
    (∀ (pageContentPx : ℚ) (r0 : Row) (rest : List Row),
      ((splitTableParsed pageContentPx r0 rest).map
          (fun t => if r0.hasTh then (tableRows t).tail else tableRows t)).flatten
        = (if r0.hasTh then rest else r0 :: rest) ∧
      (r0.hasTh = true → ∀ t ∈ splitTableParsed pageContentPx r0 rest,
        (tableRows t).head? = some r0)) ∧
    (∀ (availableHeight : ℚ) (rows a b : List Row),
      splitTableAtBoundary availableHeight rows = some (a, b) →
      ∃ r0 rest, rows = r0 :: rest ∧
        (if r0.hasTh then a.tail ++ b.tail else a ++ b)
          = (if r0.hasTh then rest else r0 :: rest) ∧
        (r0.hasTh = true → a.head? = some r0 ∧ b.head? = some r0)) := by
  constructor
  · intro pageContentPx r0 rest
    have hmap : ∀ gs : List (List Row),
        ((gs.map fun g => Node.table ((if r0.hasTh then [r0] else []) ++ g)).map
          (fun t => if r0.hasTh then (tableRows t).tail else tableRows t)) = gs := by
      intro gs
      induction gs with
      | nil => rfl
      | cons g gs ih =>
        simp only [List.map_cons, ih]
        by_cases hth : r0.hasTh <;> simp [hth, tableRows]
    constructor
    · simp only [splitTableParsed]
      rw [hmap]
      simpa [groupRows] using groupRowsAux_flatten
        (pageContentPx - (if r0.hasTh then r0.height else 0) - 2)
        (if r0.hasTh then rest else r0 :: rest) [] 0
    · intro hth t ht
      simp only [splitTableParsed, hth, if_true, List.mem_map] at ht
      obtain ⟨g, _, hg⟩ := ht
      subst hg
      simp [tableRows]
  · intro availableHeight rows a b hsome
    cases rows with
    | nil => exact absurd hsome (by simp [splitTableAtBoundary])
    | cons r0 rest =>
      refine ⟨r0, rest, rfl, ?_⟩
      rw [splitTableAtBoundary] at hsome
      by_cases h1 : (if r0.hasTh then rest else r0 :: rest).length < 2
      · rw [if_pos h1] at hsome; exact absurd hsome (by simp)
      rw [if_neg h1] at hsome
      by_cases h2 : availableHeight - (if r0.hasTh then r0.height else 0) - 2 ≤ 0
      · rw [if_pos h2] at hsome; exact absurd hsome (by simp)
      rw [if_neg h2] at hsome
      set body := if r0.hasTh then rest else r0 :: rest with hbody
      set fc := countFit (availableHeight - (if r0.hasTh then r0.height else 0) - 2) body
        with hfc
      by_cases h3 : fc = 0 ∨ fc = body.length
      · rw [if_pos h3] at hsome; exact absurd hsome (by simp)
      rw [if_neg h3] at hsome
      have heq := Option.some.inj hsome
      have ha : a = (if r0.hasTh then [r0] else []) ++ body.take fc :=
        (congrArg Prod.fst heq).symm
      have hb : b = (if r0.hasTh then [r0] else []) ++ body.drop fc :=
        (congrArg Prod.snd heq).symm
      subst ha hb
      by_cases hth : r0.hasTh
      · simp only [hth, if_true, List.singleton_append]
        refine ⟨?_, fun _ => ⟨rfl, rfl⟩⟩
        simp only [List.tail_cons]
        exact List.take_append_drop fc body
      · simp only [hth, Bool.false_eq_true, if_false, List.nil_append]
        exact ⟨List.take_append_drop fc body, fun hc => absurd hc (by simp [hth])⟩

/-- Witness for C2's boundary-split conjunct: a three-row table with a
header whose first body row fits in the available space. -/
theorem claim_C2_witness :
    ∃ r0 rest, [⟨true, 5, 0⟩, ⟨false, 4, 1⟩, ⟨false, 4, 2⟩] = r0 :: rest ∧
      (if r0.hasTh then
          ([(⟨true, 5, 0⟩ : Row), ⟨false, 4, 1⟩].tail ++
           [(⟨true, 5, 0⟩ : Row), ⟨false, 4, 2⟩].tail)
        else ([(⟨true, 5, 0⟩ : Row), ⟨false, 4, 1⟩] ++
           [(⟨true, 5, 0⟩ : Row), ⟨false, 4, 2⟩]))
        = (if r0.hasTh then rest else r0 :: rest) ∧
      (r0.hasTh = true →
        ([(⟨true, 5, 0⟩ : Row), ⟨false, 4, 1⟩].head? = some r0 ∧
         [(⟨true, 5, 0⟩ : Row), ⟨false, 4, 2⟩].head? = some r0)) := by
  refine claim_C2.2 12 [⟨true, 5, 0⟩, ⟨false, 4, 1⟩, ⟨false, 4, 2⟩]
    [⟨true, 5, 0⟩, ⟨false, 4, 1⟩] [⟨true, 5, 0⟩, ⟨false, 4, 2⟩] ?_
  rw [splitTableAtBoundary]
  norm_num [countFit, countFitAux]

/-- C3: for every text element split by `splitOversizedText` (first
conjunct) or `splitTextAtBoundary` (second conjunct), the fragments'
word sequences concatenate to the original tokenized word sequence, and
re-joining the fragments' texts with single spaces reproduces the
whitespace-collapsed original (the tokens joined with single
spaces). -/
theorem claim_C3 :
    (∀ (meas : List Str → ℚ) (pageContentPx : ℚ) (words : List Str),
      (chunkWords meas pageContentPx words 0).flatten = words ∧
      joinSp ((chunkWords meas pageContentPx words 0).map joinSp) = joinSp words) ∧
    (∀ (tag : String) (meas : List Str → ℚ) (words : List Str)
        (availableHeight : ℚ) (a b : List Str),
      splitTextAtBoundary tag meas words availableHeight = some (a, b) →
      a ++ b = words ∧ joinSp [joinSp a, joinSp b] = joinSp words) := by
  constructor
  · intro meas pageContentPx words
    have hflat : (chunkWords meas pageContentPx words 0).flatten = words := by
      simpa using chunkWords_flatten meas pageContentPx words 0
    refine ⟨hflat, ?_⟩
    rw [joinSp_map_flatten _ (chunkWords_ne meas pageContentPx words 0), hflat]
  · intro tag meas words availableHeight a b hsome
    rw [splitTextAtBoundary] at hsome
    by_cases h1 : tag = "TABLE" ∨ tag = "IMG"
    · rw [if_pos h1] at hsome; exact absurd hsome (by simp)
    rw [if_neg h1] at hsome
    by_cases h2 : words.length < 2
    · rw [if_pos h2] at hsome; exact absurd hsome (by simp)
    rw [if_neg h2] at hsome
    by_cases h3 : availableHeight < meas (words.take 1)
    · rw [if_pos h3] at hsome; exact absurd hsome (by simp)
    rw [if_neg h3] at hsome
    by_cases h4 : words.length ≤ binarySearchWordFit meas words availableHeight 0
    · rw [if_pos h4] at hsome; exact absurd hsome (by simp)
    rw [if_neg h4] at hsome
    have heq := Option.some.inj hsome
    set lo := binarySearchWordFit meas words availableHeight 0 with hlo
    have ha : a = words.take lo := (congrArg Prod.fst heq).symm
    have hb : b = words.drop lo := (congrArg Prod.snd heq).symm
    subst ha hb
    have happ : words.take lo ++ words.drop lo = words := List.take_append_drop lo words
    refine ⟨happ, ?_⟩
    have hge : 0 + 1 ≤ lo :=
      binarySearchWordFit_ge meas words availableHeight 0 (by omega)
    have hane : words.take lo ≠ [] := by
      intro h0
      have := congrArg List.length h0
      rw [List.length_take] at this
      simp only [List.length_nil] at this
      omega
    have hbne : words.drop lo ≠ [] := by
      intro h0
      have := congrArg List.length h0
      rw [List.length_drop] at this
      simp only [List.length_nil] at this
      omega
    calc joinSp [joinSp (words.take lo), joinSp (words.drop lo)]
    _ = joinSp (words.take lo) ++ ' ' :: joinSp (words.drop lo) := by simp [joinSp]
    _ = joinSp (words.take lo ++ words.drop lo) :=
      (joinSp_append _ _ hane hbne).symm
    _ = joinSp words := by rw [happ]

/-- Witness for C3's boundary-split conjunct: two words, only the first
fits the available height. -/
theorem claim_C3_witness :
    [['a']] ++ [['b']] = [['a'], ['b']] ∧
    joinSp [joinSp [['a']], joinSp [['b']]] = joinSp [['a'], ['b']] := by
  refine claim_C3.2 "P" (fun ws => (ws.length : ℚ)) [['a'], ['b']] 1 [['a']] [['b']] ?_
  rw [splitTextAtBoundary, binarySearchWordFit, binarySearchAux]
  norm_num [wslice]
  rw [binarySearchAux]
  norm_num
  exact ⟨by decide, by decide⟩

/-- Summing heights distributes over append. -/
theorem sumHeights_append (xs ys : List Row) :
    sumHeights (xs ++ ys) = sumHeights xs + sumHeights ys := by
  simp [sumHeights]

/-- Chunk-height collection distributes over append. -/
theorem emittedChunkHeights_append (pp : ℚ) : ∀ xs ys : List Node,
    emittedChunkHeights pp (xs ++ ys)
      = emittedChunkHeights pp xs ++ emittedChunkHeights pp ys
  | [], ys => by simp [emittedChunkHeights]
  | .table rows :: xs, ys => by
    simp only [List.cons_append, emittedChunkHeights]
    exact emittedChunkHeights_append pp xs ys
  | .text tag h meas ws :: xs, ys => by
    simp only [List.cons_append, emittedChunkHeights,
      emittedChunkHeights_append pp xs ys, List.append_assoc]
  | .elem h children :: xs, ys => by
    simp only [List.cons_append, emittedChunkHeights,
      emittedChunkHeights_append pp xs ys, List.append_assoc]

/-- Emitted sub-tables contribute no text chunks. -/
theorem emittedChunkHeights_tables (pp : ℚ) (f : List Row → Node)
    (hf : ∀ g, ∃ rows, f g = .table rows) :
    ∀ gs : List (List Row), emittedChunkHeights pp (gs.map f) = []
  | [] => by simp [emittedChunkHeights]
  | g :: gs => by
    obtain ⟨rows, hrows⟩ := hf g
    simp only [List.map_cons, hrows, emittedChunkHeights]
    exact emittedChunkHeights_tables pp f hf gs

/-- Unfolding the table pass over a leading table child. -/
theorem splitOversizedTablesPass_cons_table (pp : ℚ) (rows : List Row)
    (cs : List Node) :
    splitOversizedTablesPass pp (.table rows :: cs)
      = (if tableHeight rows ≤ pp then [Node.table rows]
         else match rows with
           | [] => [Node.table rows]
           | r0 :: rest => splitTableParsed pp r0 rest) ++
        splitOversizedTablesPass pp cs := rfl

/-- Unfolding the table pass over a leading text child. -/
theorem splitOversizedTablesPass_cons_text (pp : ℚ) (tag : String) (h : ℚ)
    (meas : List Str → ℚ) (ws : List Str) (cs : List Node) :
    splitOversizedTablesPass pp (.text tag h meas ws :: cs)
      = .text tag h meas ws :: splitOversizedTablesPass pp cs := rfl

/-- Unfolding the table pass over a leading element child. -/
theorem splitOversizedTablesPass_cons_elem (pp h : ℚ)
    (children cs : List Node) :
    splitOversizedTablesPass pp (.elem h children :: cs)
      = .elem h children :: splitOversizedTablesPass pp cs := rfl

/-- The table pass does not change which text chunks the text pass
emits: it only replaces tables with tables. -/
theorem emittedChunkHeights_tablePass (pp : ℚ) : ∀ children : List Node,
    emittedChunkHeights pp (splitOversizedTablesPass pp children)
      = emittedChunkHeights pp children
  | [] => rfl
  | .table rows :: cs => by
    rw [splitOversizedTablesPass_cons_table, emittedChunkHeights_append]
    by_cases hle : tableHeight rows ≤ pp
    · simp only [if_pos hle, emittedChunkHeights]
      exact emittedChunkHeights_tablePass pp cs
    · simp only [if_neg hle]
      cases rows with
      | nil =>
        simp only [emittedChunkHeights]
        exact emittedChunkHeights_tablePass pp cs
      | cons r0 rest =>
        show emittedChunkHeights pp (splitTableParsed pp r0 rest) ++
            emittedChunkHeights pp (splitOversizedTablesPass pp cs)
          = emittedChunkHeights pp (Node.table (r0 :: rest) :: cs)
        rw [show splitTableParsed pp r0 rest
            = (groupRows (pp - (if r0.hasTh then r0.height else 0) - 2)
                (if r0.hasTh then rest else r0 :: rest)).map
                (fun g => Node.table ((if r0.hasTh then [r0] else []) ++ g)) from rfl,
          emittedChunkHeights_tables pp _ (fun g => ⟨_, rfl⟩),
          List.nil_append, emittedChunkHeights, emittedChunkHeights_tablePass pp cs]
  | .text tag h meas ws :: cs => by
    rw [splitOversizedTablesPass_cons_text]
    simp only [emittedChunkHeights]
    rw [emittedChunkHeights_tablePass pp cs]
  | .elem h children :: cs => by
    rw [splitOversizedTablesPass_cons_elem]
    simp only [emittedChunkHeights]
    rw [emittedChunkHeights_tablePass pp cs]

/-- Under the row-fit hypothesis, every emitted sub-table's height is
within the page. -/
theorem emittedTableHeights_le (pp : ℚ) : ∀ children : List Node,
    tableRowsFit pp children = true →
    ∀ q ∈ emittedTableHeights pp children, q ≤ pp
  | [], _, q, hq => by simp [emittedTableHeights] at hq
  | .table [] :: cs, hfit, q, hq => by
    rw [emittedTableHeights] at hq
    rw [tableRowsFit] at hfit
    exact emittedTableHeights_le pp cs hfit q hq
  | .table (r0 :: rest) :: cs, hfit, q, hq => by
    rw [emittedTableHeights] at hq
    rw [tableRowsFit, Bool.and_eq_true] at hfit
    rcases List.mem_append.mp hq with h1 | h2
    · by_cases hle : tableHeight (r0 :: rest) ≤ pp
      · rw [if_pos hle] at h1; simp at h1
      · rw [if_neg hle] at h1
        have hrowsfit : ∀ r ∈ (if r0.hasTh then rest else r0 :: rest),
            r.height ≤ pp - (if r0.hasTh then r0.height else 0) - 2 := by
          rcases Bool.or_eq_true .. |>.mp hfit.1 with hd | hall
          · exact absurd (of_decide_eq_true hd) hle
          · intro r hr
            exact of_decide_eq_true (List.all_eq_true.mp hall r hr)
        rw [splitTableParsed, List.map_map, List.mem_map] at h1
        obtain ⟨g, hg, hgq⟩ := h1
        have hsum := groupRowsAux_sums
          (pp - (if r0.hasTh then r0.height else 0) - 2)
          (if r0.hasTh then rest else r0 :: rest) [] 0 hrowsfit
          (by simp [sumHeights]) (Or.inl ⟨rfl, rfl⟩) g hg
        have hq2 : q = sumHeights ((if r0.hasTh then [r0] else []) ++ g) := by
          rw [← hgq]; simp [nodeHeight, tableHeight]
        rw [hq2, sumHeights_append]
        have hhl : sumHeights (if r0.hasTh then [r0] else [])
            = (if r0.hasTh then r0.height else 0) := by
          by_cases hth : r0.hasTh <;> simp [hth, sumHeights]
        rw [hhl]
        linarith
    · exact emittedTableHeights_le pp cs hfit.2 q h2
  | .text tag h meas ws :: cs, hfit, q, hq => by
    rw [emittedTableHeights] at hq
    rw [tableRowsFit] at hfit
    exact emittedTableHeights_le pp cs hfit q hq
  | .elem h children :: cs, hfit, q, hq => by
    rw [emittedTableHeights] at hq
    rw [tableRowsFit] at hfit
    exact emittedTableHeights_le pp cs hfit q hq

/-- Under the singleton-fit hypothesis, every emitted text chunk's
measured height is within the page. -/
theorem emittedChunkHeights_le (pp : ℚ) : ∀ cs : List Node,
    textSingletonsFit pp cs = true →
    ∀ q ∈ emittedChunkHeights pp cs, q ≤ pp
  | [], _, q, hq => by simp [emittedChunkHeights] at hq
  | .table rows :: cs, hfit, q, hq => by
    rw [emittedChunkHeights] at hq
    rw [textSingletonsFit] at hfit
    exact emittedChunkHeights_le pp cs hfit q hq
  | .text tag h meas ws :: cs, hfit, q, hq => by
    rw [emittedChunkHeights] at hq
    rw [textSingletonsFit, Bool.and_eq_true] at hfit
    rcases List.mem_append.mp hq with h1 | h2
    · by_cases hh : h ≤ pp
      · rw [if_pos hh] at h1; simp at h1
      · rw [if_neg hh] at h1
        have hall : ∀ w ∈ ws, meas [w] ≤ pp := by
          rcases Bool.or_eq_true .. |>.mp hfit.1 with hd | hall
          · exact absurd (of_decide_eq_true hd) hh
          · intro w hw
            exact of_decide_eq_true (List.all_eq_true.mp hall w hw)
        obtain ⟨c, hc, hcq⟩ := List.mem_map.mp h1
        rw [← hcq]
        exact chunkWords_fits meas pp ws hall 0 c hc
    · exact emittedChunkHeights_le pp cs hfit.2 q h2
  | .elem h children :: cs, hfit, q, hq => by
    rw [emittedChunkHeights] at hq
    rw [textSingletonsFit, Bool.and_eq_true] at hfit
    rcases List.mem_append.mp hq with h1 | h2
    · by_cases hh : h ≤ pp
      · rw [if_pos hh] at h1; simp at h1
      · rw [if_neg hh] at h1
        have hrec : textSingletonsFit pp children = true := by
          rcases Bool.or_eq_true .. |>.mp hfit.1 with hd | hch
          · exact absurd (of_decide_eq_true hd) hh
          · exact hch
        exact emittedChunkHeights_le pp children hrec q h1
    · exact emittedChunkHeights_le pp cs hfit.2 q h2

/-- C1 (amended): after `splitOversizedTables` followed by
`splitOversizedText`, every emitted sub-table and every emitted text
fragment measures at most `pageContentPx` — provided every body row of
each oversized direct-child table fits within
`pageContentPx - headerHeight - 2` and every single word of each split
text leaf measures within `pageContentPx`.  (Without these provisos the
claim is false: see the counterexample.) -/
theorem claim_C1_amended (pageContentPx : ℚ) (children : List Node)
    (hpp : 0 < pageContentPx)
    (hrows : tableRowsFit pageContentPx children = true)
    (hwords : textSingletonsFit pageContentPx children = true) :
    (∀ q ∈ emittedTableHeights pageContentPx children, q ≤ pageContentPx) ∧
    (∀ q ∈ emittedChunkHeights pageContentPx
        (splitOversizedTablesPass pageContentPx children), q ≤ pageContentPx) := by
  refine ⟨emittedTableHeights_le pageContentPx children hrows, ?_⟩
  rw [emittedChunkHeights_tablePass]
  exact emittedChunkHeights_le pageContentPx children hwords

/-- Counterexample to C1 as stated: a direct-child text leaf holding a
single word whose measured height is 20px, with `pageContentPx = 10`.
The oversize pass emits that word as a fragment of height 20 > 10. -/
theorem claim_C1_counterexample :
    ¬ (∀ q ∈ emittedChunkHeights 10 (splitOversizedTablesPass 10
        [Node.text "P" 20 (fun _ => 20) [['w']]]), q ≤ 10) := by
  intro hall
  have h20 : (20 : ℚ) ∈ emittedChunkHeights 10 (splitOversizedTablesPass 10
      [Node.text "P" 20 (fun _ => 20) [['w']]]) := by
    show (20 : ℚ) ∈ emittedChunkHeights 10 [Node.text "P" 20 (fun _ => 20) [['w']]]
    rw [emittedChunkHeights, if_neg (by norm_num), chunkWords]
    rw [dif_pos (by norm_num)]
    simp [emittedChunkHeights]
  exact absurd (hall 20 h20) (by norm_num)

/-- Witness for C1's amended statement: a header table whose body rows
each fit the per-fragment budget. -/
theorem claim_C1_witness :
    (∀ q ∈ emittedTableHeights 10
        [Node.table [⟨true, 5, 0⟩, ⟨false, 3, 1⟩, ⟨false, 3, 2⟩]], q ≤ 10) ∧
    (∀ q ∈ emittedChunkHeights 10 (splitOversizedTablesPass 10
        [Node.table [⟨true, 5, 0⟩, ⟨false, 3, 1⟩, ⟨false, 3, 2⟩]]), q ≤ 10) :=
  claim_C1_amended 10 [Node.table [⟨true, 5, 0⟩, ⟨false, 3, 1⟩, ⟨false, 3, 2⟩]]
    (by norm_num)
    (by norm_num [tableRowsFit, tableHeight, sumHeights])
    (by norm_num [textSingletonsFit])

/-- C4 (amended): for a direct child that straddles its page boundary
and admits a *non-trivial* boundary split — for tables: at least two
body rows, positive body space, and a greedy fit count with at least
one row fitting and at least one row left over; for text leaves: not a
table/image tag, at least two words, a first word that fits the
remaining space, and a maximal fitting prefix that is proper — the
engine performs the boundary split and never inserts the whole-block
page-push spacer.  (The original claim, requiring only that *some*
sub-unit fits, is false: see the counterexample.) -/
theorem claim_C4_amended (pageContentPx childTop : ℚ) (child : Node)
    (hstraddle : childTop + nodeHeight child >
      ((⌊childTop / pageContentPx⌋ : ℤ) + 1) * pageContentPx + 1/2)
    (hsplit : match child with
      | .table [] => False
      | .table (r0 :: rest) =>
        2 ≤ (if r0.hasTh then rest else r0 :: rest).length ∧
        0 < ((⌊childTop / pageContentPx⌋ : ℤ) + 1) * pageContentPx - childTop -
          (if r0.hasTh then r0.height else 0) - 2 ∧
        1 ≤ countFit (((⌊childTop / pageContentPx⌋ : ℤ) + 1) * pageContentPx -
            childTop - (if r0.hasTh then r0.height else 0) - 2)
          (if r0.hasTh then rest else r0 :: rest) ∧
        countFit (((⌊childTop / pageContentPx⌋ : ℤ) + 1) * pageContentPx -
            childTop - (if r0.hasTh then r0.height else 0) - 2)
          (if r0.hasTh then rest else r0 :: rest)
          < (if r0.hasTh then rest else r0 :: rest).length
      | .text tag _ meas words =>
        tag ≠ "TABLE" ∧ tag ≠ "IMG" ∧ 2 ≤ words.length ∧
        meas (words.take 1) ≤
          ((⌊childTop / pageContentPx⌋ : ℤ) + 1) * pageContentPx - childTop ∧
        binarySearchWordFit meas words
          (((⌊childTop / pageContentPx⌋ : ℤ) + 1) * pageContentPx - childTop) 0
          < words.length
      | .elem _ _ => False) :
    (processChild pageContentPx childTop child).isBoundarySplit = true := by
  cases child with
  | elem h children => exact hsplit.elim
  | table rows =>
    cases rows with
    | nil => exact hsplit.elim
    | cons r0 rest =>
      obtain ⟨hlen, hmax, hfc1, hfc2⟩ := hsplit
      simp only [processChild]
      rw [if_pos hstraddle]
      have hsome : splitTableAtBoundary
          (((⌊childTop / pageContentPx⌋ : ℤ) + 1) * pageContentPx - childTop)
          (r0 :: rest)
          = some ((if r0.hasTh then [r0] else []) ++
              (if r0.hasTh then rest else r0 :: rest).take
                (countFit (((⌊childTop / pageContentPx⌋ : ℤ) + 1) * pageContentPx -
                  childTop - (if r0.hasTh then r0.height else 0) - 2)
                  (if r0.hasTh then rest else r0 :: rest)),
            (if r0.hasTh then [r0] else []) ++
              (if r0.hasTh then rest else r0 :: rest).drop
                (countFit (((⌊childTop / pageContentPx⌋ : ℤ) + 1) * pageContentPx -
                  childTop - (if r0.hasTh then r0.height else 0) - 2)
                  (if r0.hasTh then rest else r0 :: rest))) := by
        simp only [splitTableAtBoundary]
        rw [if_neg (by omega), if_neg (by push_neg; linarith), if_neg (by

          push_neg
          omega)]
      rw [hsome]
      rfl
  | text tag h meas words =>
    obtain ⟨htag1, htag2, hlen, hfirst, hlo⟩ := hsplit
    simp only [processChild]
    rw [if_pos hstraddle]
    have hsome : splitTextAtBoundary tag meas words
        (((⌊childTop / pageContentPx⌋ : ℤ) + 1) * pageContentPx - childTop)
        = some (words.take (binarySearchWordFit meas words
            (((⌊childTop / pageContentPx⌋ : ℤ) + 1) * pageContentPx - childTop) 0),
          words.drop (binarySearchWordFit meas words
            (((⌊childTop / pageContentPx⌋ : ℤ) + 1) * pageContentPx - childTop) 0)) := by
      simp only [splitTextAtBoundary]
      rw [if_neg (by simp [htag1, htag2]), if_neg (by omega),
        if_neg (by push_neg; exact hfirst), if_neg (by omega)]
    rw [hsome]
    rfl

/-- Counterexample to C4 as stated: a text leaf of two words, each
measuring 1px, straddling the boundary at `pageContentPx = 10` from
`childTop = 5` (height 8px, bottom 13 > 10.5).  Its first word fits the
5px of remaining space, yet the engine inserts a 5px page-push spacer,
because *all* words fit the remaining space and the split search finds
no proper split point. -/
theorem claim_C4_counterexample :
    (5 : ℚ) + nodeHeight (Node.text "P" 8 (fun _ => 1) [['a'], ['b']]) >
      ((⌊(5 : ℚ) / 10⌋ : ℤ) + 1) * 10 + 1/2 ∧
    (fun _ => (1 : ℚ)) [['a']] ≤ ((⌊(5 : ℚ) / 10⌋ : ℤ) + 1) * 10 - 5 ∧
    processChild 10 5 (Node.text "P" 8 (fun _ => 1) [['a'], ['b']])
      = .spacer 5 := by
  refine ⟨by norm_num [nodeHeight], by norm_num, ?_⟩
  have hnone : splitTextAtBoundary "P" (fun _ => (1 : ℚ)) [['a'], ['b']]
      (((⌊(5 : ℚ) / 10⌋ : ℤ) + 1) * 10 - 5) = none := by
    rw [splitTextAtBoundary, binarySearchWordFit, binarySearchAux]
    norm_num [wslice]
    rw [binarySearchAux]
    norm_num
  simp only [processChild]
  rw [if_pos (by norm_num [nodeHeight]), hnone]
  rw [if_pos (by norm_num [nodeHeight])]
  norm_num

/-- Witness for C4's amended statement: two 1px-measured words with
only 1px of space left before the boundary. -/
theorem claim_C4_witness :
    (processChild 10 9
      (Node.text "P" 2 (fun ws => (ws.length : ℚ)) [['a'], ['b']])).isBoundarySplit
      = true := by
  refine claim_C4_amended 10 9
    (Node.text "P" 2 (fun ws => (ws.length : ℚ)) [['a'], ['b']])
    (by norm_num [nodeHeight]) ?_
  refine ⟨by decide, by decide, by norm_num, by norm_num, ?_⟩
  rw [binarySearchWordFit, binarySearchAux]
  norm_num [wslice]
  rw [binarySearchAux]
  norm_num

/-- C5: at `renderedWidth = 0` (an element not laid out), the code does
not reject the call — there is no width check anywhere in `prepare` or
`computeLayout` — and instead silently computes `scale = Infinity` and
`pageContentPx = 0`, which the splitting and spacer passes then consume
as the page height.  This theorem records the code's behaviour at the
failing input (default a4 options); the claim's required configuration
error does not exist in the code. -/
theorem claim_C5_behavior :
    computeLayout (.fin 0) (resolveOptions {}) =
      { renderedWidth := .fin 0
        scale := .inf
        contentWidthMm := .fin 160
        pageContentPx := .fin 0 } := by
  norm_num [computeLayout, JSNum.div, JSNum.jfloor, resolveOptions,
    resolveMargin, createUniformMargin, PAGE_MARGINS, PAGE_SIZES]

/-- C9 (amended): once `prepare` has returned, cleanup runs on both
remaining exit paths — normal completion and a throw from image
compression or the external renderer — and removes the off-screen clone
and the injected reset-style element.  (The original claim also covered
a throw *during* preparation; that path leaks both artifacts: see the
counterexample.) -/
theorem claim_C9_amended (failDuringRender : Bool) (s : DomState) :
    noArtifacts (exitState (generatePDFRun false failDuringRender s)) := by
  cases failDuringRender <;>
    simp [generatePDFRun, prepareRun, exitState, cleanupArtifacts, noArtifacts]

/-- Counterexample to C9 as stated: a throw during preparation (after
the reset style and clone are attached, e.g. from the splitting passes)
propagates out of `generatePDF` before its `try`/`finally` is entered,
leaving both artifacts attached — cleanup does not run on that exit
path. -/
theorem claim_C9_counterexample :
    generatePDFRun true false ⟨false, false⟩ =
      .error ⟨true, true⟩ := rfl

end JsPdfUtils
